import Mathlib

/-!
Verification development for the trading bot in `src/api/index.py`.

The program is embedded shallowly over `ℚ`:

* Pandas/NumPy floating-point values are modelled as rationals; a value that
  is not a finite number (NaN, or an infinity produced by division by zero)
  is modelled as `none : Option ℚ`.  In the pipeline below every non-finite
  intermediate value either propagates to NaN or is consumed by a comparison,
  and IEEE comparisons against NaN are false, which is exactly how the
  `Option`-aware comparison helpers behave.
* The Firestore positions dictionary always holds exactly the tickers of
  `PORTFOLIO_CONFIG` (it is created that way by `get_state` and only those
  keys are ever written), so it is modelled as a total map `String → Position`
  and iteration over its keys as iteration over `TICKERS`.
* Wall-clock time (`datetime.now`) is passed in explicitly: the New-York
  timestamp used by `is_trading_hour` as an `NYCTime`, and the timestamp
  string used in log entries as a plain argument.
* I/O collaborators are passed in as values: `retry_download` as a function
  `String → ℕ → Option (List Bar)`, the Firestore document as an
  `Option LedgerState` (`none` models an unavailable/unconfigured store,
  i.e. `db is None`), and Telegram notifications are collected in a list.
-/

/-- One daily OHLC price bar (only the columns the strategy reads). -/
structure Bar where
  high : ℚ
  low : ℚ
  close : ℚ
deriving DecidableEq

/-- Position status strings "NEUTRAL" / "LONG". -/
inductive Status where
  | NEUTRAL
  | LONG
deriving DecidableEq

/-- Signal strings "BUY" / "SELL" / "HOLD". -/
inductive Signal where
  | BUY
  | SELL
  | HOLD
deriving DecidableEq

/-- Strategy label strings "SQUEEZE" / "TURTLE" / "MEAN_REV". -/
inductive Strategy where
  | SQUEEZE
  | TURTLE
  | MEAN_REV
deriving DecidableEq

/-- The string the code stores in `active_strategy`. -/
def Strategy.name : Strategy → String
  | .SQUEEZE => "SQUEEZE"
  | .TURTLE => "TURTLE"
  | .MEAN_REV => "MEAN_REV"

/-- Per-instrument position record `{"status", "shares", "entry_price"}`. -/
structure Position where
  status : Status
  shares : ℚ
  entry_price : ℚ
deriving DecidableEq

/-- The portfolio document `{"cash", "positions", "logs"}`. -/
structure LedgerState where
  cash : ℚ
  positions : String → Position
  logs : List String

/-- `INITIAL_CAPITAL = 100000.0` -/
def INITIAL_CAPITAL : ℚ := 100000

/-- `RISK_PER_TRADE = 0.02` -/
def RISK_PER_TRADE : ℚ := 0.02

/-- `COMMISSION_RATE = 0.001` -/
def COMMISSION_RATE : ℚ := 0.001

/-- Per-ticker Turtle windows, `{'Entry': .., 'Exit': ..}`. -/
structure TickerConfig where
  Entry : ℕ
  Exit : ℕ
deriving DecidableEq

/-- `PORTFOLIO_CONFIG` -/
def PORTFOLIO_CONFIG : List (String × TickerConfig) :=
  [("WDC", ⟨50, 20⟩), ("STX", ⟨65, 35⟩), ("HOOD", ⟨20, 10⟩), ("CAH", ⟨40, 30⟩)]

/-- The key set of the positions dictionary. -/
def TICKERS : List String := PORTFOLIO_CONFIG.map Prod.fst

/-- `MR_SETTINGS = {'Window': 20, 'StdDev': 2.0}` -/
structure MRSettings where
  Window : ℕ
  StdDev : ℚ

def MR_SETTINGS : MRSettings := ⟨20, 2⟩

/-! ## NaN-aware scalar helpers

`none` stands for a non-finite float.  Comparisons against a non-finite
value behave like IEEE comparisons against NaN in the source: the
conditions below only fire on finite numbers (`inf < 1.0` is also false for
the one place an infinity can reach a comparison, `atr_pct < 1.0`). -/

def divO : Option ℚ → Option ℚ → Option ℚ
  | some a, some b => if b = 0 then none else some (a / b)
  | _, _ => none

def subO : Option ℚ → Option ℚ → Option ℚ
  | some a, some b => some (a - b)
  | _, _ => none

def addO : Option ℚ → Option ℚ → Option ℚ
  | some a, some b => some (a + b)
  | _, _ => none

/-- `x < c` for a possibly-NaN left operand. -/
def ltConst (x : Option ℚ) (c : ℚ) : Bool :=
  match x with
  | some v => decide (v < c)
  | none => false

/-- `x > c` for a possibly-NaN left operand. -/
def gtConst (x : Option ℚ) (c : ℚ) : Bool :=
  match x with
  | some v => decide (c < v)
  | none => false

/-- `p > x` for a possibly-NaN right operand. -/
def gtOpt (p : ℚ) (x : Option ℚ) : Bool :=
  match x with
  | some v => decide (v < p)
  | none => false

/-- `p < x` for a possibly-NaN right operand. -/
def ltOpt (p : ℚ) (x : Option ℚ) : Bool :=
  match x with
  | some v => decide (p < v)
  | none => false

/-! ## Series helpers (pandas operations used by the indicators) -/

/-- Tail of `Series.diff()`: consecutive differences. -/
def diffAux (prev : ℚ) : List ℚ → List (Option ℚ)
  | [] => []
  | x :: xs => some (x - prev) :: diffAux x xs

/-- `Series.diff()`: first entry NaN, then consecutive differences. -/
def diffO : List ℚ → List (Option ℚ)
  | [] => []
  | x :: xs => none :: diffAux x xs

/-- Tail of the true-range series (rows with a previous close). -/
def trAux (prev : Bar) : List Bar → List ℚ
  | [] => []
  | b :: bs =>
      max (b.high - b.low) (max |b.high - prev.close| |b.low - prev.close|) :: trAux b bs

/-- `pd.concat([high-low, (high-close.shift()).abs(), (low-close.shift()).abs()]).max(axis=1)`:
on the first row the shifted close is NaN and the skipna row-max keeps
`high - low`; later rows take the max of all three columns. -/
def trList : List Bar → List ℚ
  | [] => []
  | b :: bs => (b.high - b.low) :: trAux b bs

/-- State step of `Series.ewm(alpha=α, adjust=False).mean()` on a series with
missing values (`ignore_na=False`): the running pair `(n, d)` is the weighted
sum and the weight mass; a NaN input decays both, a valid input adds weight
`α`.  The emitted mean is `n / d` (NaN while no valid observation has been
seen, and on zero mass). -/
def ewmGo (a : ℚ) : Option (ℚ × ℚ) → List (Option ℚ) → List (Option ℚ)
  | _, [] => []
  | none, none :: xs => none :: ewmGo a none xs
  | none, some v :: xs => some v :: ewmGo a (some (v, 1)) xs
  | some (n, d), x :: xs =>
      let n2 := (1 - a) * n + (match x with | some v => a * v | none => 0)
      let d2 := (1 - a) * d + (match x with | some _ => a | none => 0)
      (if d2 = 0 then none else some (n2 / d2)) :: ewmGo a (some (n2, d2)) xs

/-- `Series.ewm(alpha=a, adjust=False).mean()`. -/
def ewm (a : ℚ) (xs : List (Option ℚ)) : List (Option ℚ) :=
  ewmGo a none xs

/-- `series.rolling(w).mean().iloc[-1]` (NaN when fewer than `w` rows). -/
def rollingMeanLast (w : ℕ) (xs : List ℚ) : Option ℚ :=
  if xs.length < w ∨ w = 0 then none
  else some ((xs.drop (xs.length - w)).sum / (w : ℚ))

/-- `series.rolling(w).max().iloc[-1]` (NaN when fewer than `w` rows). -/
def rollingMaxLast (w : ℕ) (xs : List ℚ) : Option ℚ :=
  if xs.length < w ∨ w = 0 then none
  else (xs.drop (xs.length - w)).max?

/-- `series.rolling(w).min().iloc[-1]` (NaN when fewer than `w` rows). -/
def rollingMinLast (w : ℕ) (xs : List ℚ) : Option ℚ :=
  if xs.length < w ∨ w = 0 then none
  else (xs.drop (xs.length - w)).min?

/-- `series.rolling(w).std().iloc[-1]` squared, i.e. the sample variance
(`ddof=1`) of the last `w` entries.  The square root of a rational is not
rational, so the variance is kept and every comparison against the standard
deviation is stated in squared form at its use site. -/
def rollingVarLast (w : ℕ) (xs : List ℚ) : Option ℚ :=
  if xs.length < w ∨ w ≤ 1 then none
  else
    let win := xs.drop (xs.length - w)
    let m := win.sum / (w : ℚ)
    some ((win.map (fun x => (x - m) ^ 2)).sum / ((w : ℚ) - 1))

/-! ## Indicators -/

/-- `get_atr`: rolling mean of the true range, last value. -/
def get_atr (bars : List Bar) (window : ℕ := 14) : Option ℚ :=
  rollingMeanLast window (trList bars)

/-- `plus_dm`: `high.diff()` with negative entries zeroed (NaN survives:
`NaN < 0` is false, so the masked assignment leaves it). -/
def adx_plus_dm (bars : List Bar) : List (Option ℚ) :=
  (diffO (bars.map Bar.high)).map (Option.map (fun v => if v < 0 then 0 else v))

/-- `minus_dm`: `low.diff()` with positive entries zeroed. -/
def adx_minus_dm (bars : List Bar) : List (Option ℚ) :=
  (diffO (bars.map Bar.low)).map (Option.map (fun v => if 0 < v then 0 else v))

/-- `atr` inside `get_adx`: Wilder smoothing of the true range. -/
def adx_atr (window : ℕ) (bars : List Bar) : List (Option ℚ) :=
  ewm (1 / (window : ℚ)) ((trList bars).map some)

/-- `plus_di = 100 * (plus_dm.ewm(alpha=1/window, adjust=False).mean() / atr)` -/
def adx_plus_di (window : ℕ) (bars : List Bar) : List (Option ℚ) :=
  List.zipWith (fun a b => (divO a b).map (fun q => 100 * q))
    (ewm (1 / (window : ℚ)) (adx_plus_dm bars)) (adx_atr window bars)

/-- `minus_di = 100 * (minus_dm.ewm(alpha=1/window, adjust=False).mean().abs() / atr)` -/
def adx_minus_di (window : ℕ) (bars : List Bar) : List (Option ℚ) :=
  List.zipWith (fun a b => (divO a b).map (fun q => 100 * q))
    ((ewm (1 / (window : ℚ)) (adx_minus_dm bars)).map (Option.map abs))
    (adx_atr window bars)

/-- `dx = 100 * (abs(plus_di - minus_di) / (plus_di + minus_di))` -/
def adx_dx (window : ℕ) (bars : List Bar) : List (Option ℚ) :=
  List.zipWith (fun p m => (divO (Option.map abs (subO p m)) (addO p m)).map (fun q => 100 * q))
    (adx_plus_di window bars) (adx_minus_di window bars)

/-- `get_adx`: 0 for fewer than `window * 2` rows, otherwise the last value
of the smoothed DX series (`none` when that float is not finite). -/
def get_adx (bars : List Bar) (window : ℕ := 14) : Option ℚ :=
  if bars.length < window * 2 then some 0
  else ((ewm (1 / (window : ℚ)) (adx_dx window bars)).getLast?).join

/-- `calculate_position_size` -/
def calculate_position_size (price volatility total_equity : ℚ) : ℚ :=
  if volatility = 0 ∨ price = 0 then 0
  else
    let risk_dollars := total_equity * RISK_PER_TRADE
    let stop_distance := 2 * volatility
    if stop_distance = 0 then 0
    else
      let shares := risk_dollars / stop_distance
      let max_position_val := total_equity * 0.24
      min shares (max_position_val / price)

/-! ## Market-hours gate -/

/-- The America/New_York wall clock at invocation time: `weekday` as in
Python (`0` = Monday … `6` = Sunday) plus the time of day. -/
structure NYCTime where
  weekday : ℕ
  hour : ℕ
  minute : ℕ
  second : ℕ
  microsecond : ℕ
deriving DecidableEq

/-- Microseconds since local midnight; `now.replace(...)` keeps the date, so
the two datetime comparisons in `is_trading_hour` compare times of day. -/
def timeOfDayUs (h m s us : ℕ) : ℕ :=
  ((h * 60 + m) * 60 + s) * 1000000 + us

/-- `is_trading_hour` -/
def is_trading_hour (now : NYCTime) : Bool :=
  if 5 ≤ now.weekday then false
  else
    decide (timeOfDayUs 9 30 0 0 ≤ timeOfDayUs now.hour now.minute now.second now.microsecond)
      && decide (timeOfDayUs now.hour now.minute now.second now.microsecond ≤ timeOfDayUs 16 0 0 0)

/-! ## Ledger persistence and logging -/

/-- The default document `get_state` creates when none exists: fixed initial
cash, every configured ticker `{"NEUTRAL", 0, 0}`, empty log. -/
def initial_state : LedgerState :=
  { cash := INITIAL_CAPITAL
    positions := fun _ => ⟨Status.NEUTRAL, 0, 0⟩
    logs := [] }

/-- `save_state`: the document as written to the store — the log is
truncated to its last 50 entries when longer than 50. -/
def save_state (state : LedgerState) : LedgerState :=
  if state.logs.length > 50 then
    { state with logs := state.logs.drop (state.logs.length - 50) }
  else state

/-- The human-readable trade message (float formatting elided). -/
def trade_msg (strategy action ticker : String) (shares price balance : ℚ) : String :=
  "[" ++ strategy ++ "] " ++ action ++ " " ++ ticker ++ ": " ++ toString shares
    ++ " @ $" ++ toString price ++ " | Eq: $" ++ toString balance

/-- The log line appended to `state['logs']`. -/
def trade_log_entry (ts ticker action : String) (price shares balance : ℚ)
    (reason : String) : String :=
  ts ++ " | " ++ ticker ++ " | " ++ action ++ " | " ++ toString price ++ " | "
    ++ toString shares ++ " | " ++ toString balance ++ " | " ++ reason

/-- The Telegram text sent for a trade. -/
def telegram_text (msg reason : String) : String :=
  "Bot: " ++ msg ++ "\n(" ++ reason ++ ")"

/-- `log_trade`: appends one log entry to the state and produces the
notification text (`ts` is the `datetime.now()` timestamp string). -/
def log_trade (state : LedgerState) (ticker strategy action : String)
    (price shares : ℚ) (reason : String) (balance : ℚ) (ts : String) :
    LedgerState × String :=
  let msg := trade_msg strategy action ticker shares price balance
  ({ state with logs := state.logs ++ [trade_log_entry ts ticker action price shares balance reason] },
   telegram_text msg reason)

/-- `get_current_equity`: cash plus the marked value of every open position,
falling back to the entry price when no fresh quote is available. -/
def get_current_equity (state : LedgerState) (current_prices : String → Option ℚ) : ℚ :=
  TICKERS.foldl
    (fun equity ticker =>
      let info := state.positions ticker
      if info.shares > 0 then
        equity + info.shares * ((current_prices ticker).getD info.entry_price)
      else equity)
    state.cash

/-! ## Strategy selection and signal generation (`run_strategy_logic` body) -/

/-- Lines 186–193: `active_strategy` selection.  `atr_pct` and `adx` may be
non-finite; the masked comparisons are then false and the branch falls
through, exactly as in the float code. -/
def select_strategy (atr_pct adx : Option ℚ) (price : ℚ) (sma_200 : Option ℚ) : Strategy :=
  if ltConst atr_pct 1 then Strategy.SQUEEZE
  else if gtConst adx 25 && gtOpt price sma_200 then Strategy.TURTLE
  else Strategy.MEAN_REV

/-- Lines 196–220: per-strategy `(signal, reason)` generation.  The
MEAN_REV lower-band test `price < sma - 2 * std` is stated in squared form
(`std` is an irrational square root): for `var ≥ 0`,
`price < sma - k*sqrt var ↔ price < sma ∧ (sma - price)^2 > k^2 * var`. -/
def generate_signal (strat : Strategy) (config : TickerConfig) (status : Status)
    (price : ℚ) (bars : List Bar) : Signal × String :=
  match strat with
  | Strategy.SQUEEZE =>
      let hist_high_20 := rollingMaxLast 20 ((bars.map Bar.high).dropLast)
      if status = Status.NEUTRAL ∧ gtOpt price hist_high_20 then
        (Signal.BUY, "Squeeze Breakout")
      else (Signal.HOLD, "")
  | Strategy.TURTLE =>
      let hist_high := rollingMaxLast config.Entry ((bars.map Bar.high).dropLast)
      let hist_low := rollingMinLast config.Exit ((bars.map Bar.low).dropLast)
      if status = Status.NEUTRAL ∧ gtOpt price hist_high then
        (Signal.BUY, "Turtle Entry")
      else if status = Status.LONG ∧ ltOpt price hist_low then
        (Signal.SELL, "Turtle Exit")
      else (Signal.HOLD, "")
  | Strategy.MEAN_REV =>
      let sma := rollingMeanLast MR_SETTINGS.Window (bars.map Bar.close)
      let var := rollingVarLast MR_SETTINGS.Window (bars.map Bar.close)
      let below_lower :=
        match sma, var with
        | some m, some v => decide (price < m) && decide (MR_SETTINGS.StdDev ^ 2 * v < (m - price) ^ 2)
        | _, _ => false
      if status = Status.NEUTRAL ∧ below_lower = true then
        (Signal.BUY, "Dip Buy")
      else if status = Status.LONG ∧ gtOpt price sma then
        (Signal.SELL, "Mean Revert")
      else (Signal.HOLD, "")

/-! ## Trade execution (lines 222–236) -/

/-- The EXECUTION block for one ticker: applies a BUY/SELL signal to the
ledger and collects the Telegram notification.  `atr_val` is the (possibly
NaN) ATR; with a NaN ATR the computed `shares` and `cost` are NaN, so both
commit comparisons are false and the BUY is dropped. -/
def execStep (ts : String) (state : LedgerState) (notifs : List String)
    (ticker strategy : String) (signal : Signal) (reason : String)
    (price : ℚ) (atr_val : Option ℚ) (total_equity : ℚ) :
    LedgerState × List String :=
  let pos_data := state.positions ticker
  let current_status := pos_data.status
  if signal = Signal.BUY ∧ state.cash > 0 then
    match atr_val with
    | none => (state, notifs)
    | some vol =>
      let shares := calculate_position_size price vol total_equity
      let cost := shares * price * (1 + COMMISSION_RATE)
      if cost < state.cash ∧ shares > 0 then
        let state1 : LedgerState :=
          { cash := state.cash - cost
            positions := fun t => if t = ticker then ⟨Status.LONG, shares, price⟩ else state.positions t
            logs := state.logs }
        let r := log_trade state1 ticker strategy "BUY" price shares reason total_equity ts
        (r.1, notifs ++ [r.2])
      else (state, notifs)
  else if signal = Signal.SELL ∧ current_status = Status.LONG then
    let shares := pos_data.shares
    let revenue := shares * price * (1 - COMMISSION_RATE)
    let state1 : LedgerState :=
      { cash := state.cash + revenue
        positions := fun t => if t = ticker then ⟨Status.NEUTRAL, 0, 0⟩ else state.positions t
        logs := state.logs }
    let r := log_trade state1 ticker strategy "SELL" price shares reason total_equity ts
    (r.1, notifs ++ [r.2])
  else (state, notifs)

/-! ## Orchestrator -/

/-- One iteration of the per-ticker loop (lines 174–236): fetch 300 days of
history (skip the ticker when unavailable), compute the indicators, select
the strategy, generate the signal and execute it. -/
def process_ticker (ts : String) (fetch : String → ℕ → Option (List Bar))
    (total_equity : ℚ) (acc : LedgerState × List String)
    (tc : String × TickerConfig) : LedgerState × List String :=
  match fetch tc.1 300 with
  | none => acc
  | some bars =>
    match bars.getLast? with
    | none => acc
    | some lastBar =>
      let price := lastBar.close
      let atr_val := get_atr bars 14
      let atr_pct :=
        match atr_val with
        | some a => if price = 0 then none else some (a / price * 100)
        | none => none
      let adx := get_adx bars 14
      let sma_200 := rollingMeanLast 200 (bars.map Bar.close)
      let active_strategy := select_strategy atr_pct adx price sma_200
      let sr := generate_signal active_strategy tc.2 (acc.1.positions tc.1).status price bars
      execStep ts acc.1 acc.2 tc.1 active_strategy.name sr.1 sr.2 price atr_val total_equity

/-- `run_strategy_logic`: the full cycle.  Returns the status string, the
document written to the store (`none` when nothing was saved), and the
notifications sent. -/
def run_strategy_logic (now : NYCTime) (ts : String) (stored : Option LedgerState)
    (fetch : String → ℕ → Option (List Bar)) :
    String × Option LedgerState × List String :=
  if is_trading_hour now then
    match stored with
    | none => ("Database Error", none, [])
    | some state0 =>
      let current_prices : String → Option ℚ :=
        fun ticker => (fetch ticker 5).bind (fun df => (df.getLast?).map Bar.close)
      let total_equity := get_current_equity state0 current_prices
      let final := PORTFOLIO_CONFIG.foldl (process_ticker ts fetch total_equity) (state0, [])
      ("Logic Executed Successfully", some (save_state final.1), final.2)
  else ("Market Closed", none, [])

/-- The `/run` route handler: wraps whatever `run_strategy_logic` returns in
a response whose `status` field is always `"success"` (the `except` branch
only fires on a raised exception, which the embedded cycle never does). -/
def execute (now : NYCTime) (ts : String) (stored : Option LedgerState)
    (fetch : String → ℕ → Option (List Bar)) : String × String :=
  let result := run_strategy_logic now ts stored fetch
  ("success", result.1)

/-! ## Claims -/

/-- C3: for positive price, volatility and equity the sizer returns
`min(equity*0.02/(2*vol), equity*0.24/price)`, whose value times price never
exceeds 24% of equity; it returns 0 on zero volatility or zero price; and on
the scenario equity=100000, ATR=2, price=100 it returns 240. -/
theorem position_sizer_spec (price vol eq : ℚ) :
    (0 < price → 0 < vol → 0 < eq →
      calculate_position_size price vol eq
          = min (eq * 0.02 / (2 * vol)) (eq * 0.24 / price)
        ∧ calculate_position_size price vol eq * price ≤ 0.24 * eq)
    ∧ (vol = 0 ∨ price = 0 → calculate_position_size price vol eq = 0)
    ∧ calculate_position_size 100 2 100000 = 240 := by
  refine ⟨?_, ?_, by norm_num [calculate_position_size, RISK_PER_TRADE]⟩
  · intro hp hv he
    have hv0 : ¬ (vol = 0 ∨ price = 0) := by
      push_neg
      exact ⟨ne_of_gt hv, ne_of_gt hp⟩
    have hs0 : ¬ (2 * vol = 0) := by positivity
    have hform : calculate_position_size price vol eq
        = min (eq * RISK_PER_TRADE / (2 * vol)) (eq * 0.24 / price) := by
      simp only [calculate_position_size, hv0, hs0, if_false, if_neg]
    constructor
    · simpa [RISK_PER_TRADE] using hform
    · have h1 : calculate_position_size price vol eq ≤ eq * 0.24 / price := by
        rw [hform]; exact min_le_right _ _
      have h2 : calculate_position_size price vol eq * price ≤ eq * 0.24 / price * price :=
        mul_le_mul_of_nonneg_right h1 (le_of_lt hp)
      calc calculate_position_size price vol eq * price
          ≤ eq * 0.24 / price * price := h2
        _ = 0.24 * eq := by field_simp; ring
  · intro h
    simp [calculate_position_size, h]

/-- C3 witness: the theorem applied at price=100, vol=2, equity=100000. -/
theorem position_sizer_spec_witness :
    calculate_position_size 100 2 100000
        = min ((100000 : ℚ) * 0.02 / (2 * 2)) ((100000 : ℚ) * 0.24 / 100)
      ∧ calculate_position_size 100 2 100000 * 100 ≤ 0.24 * 100000 :=
  (position_sizer_spec 100 2 100000).1 (by norm_num) (by norm_num) (by norm_num)

/-- C4: on a finite indicator snapshot the regime classifier is total and
deterministic — exactly one of SQUEEZE / TURTLE / MEAN_REV is chosen — with
fixed priority: `atrPercent < 1` wins even when the TURTLE conditions hold;
otherwise `adx > 25 ∧ price > sma200` gives TURTLE; otherwise MEAN_REV. -/
theorem regime_classifier_spec (a x p s : ℚ) :
    (a < 1 → select_strategy (some a) (some x) p (some s) = Strategy.SQUEEZE)
    ∧ (a < 1 → 25 < x → s < p → select_strategy (some a) (some x) p (some s) = Strategy.SQUEEZE)
    ∧ (¬ a < 1 → 25 < x → s < p → select_strategy (some a) (some x) p (some s) = Strategy.TURTLE)
    ∧ (¬ a < 1 → ¬ (25 < x ∧ s < p) → select_strategy (some a) (some x) p (some s) = Strategy.MEAN_REV)
    ∧ (select_strategy (some a) (some x) p (some s) = Strategy.SQUEEZE
        ∨ select_strategy (some a) (some x) p (some s) = Strategy.TURTLE
        ∨ select_strategy (some a) (some x) p (some s) = Strategy.MEAN_REV) := by
  refine ⟨fun h1 => ?_, fun h1 _ _ => ?_, fun h1 h2 h3 => ?_, fun h1 h2 => ?_, ?_⟩
  · simp [select_strategy, ltConst, h1]
  · simp [select_strategy, ltConst, h1]
  · simp [select_strategy, ltConst, gtConst, gtOpt, h1, h2, h3]
  · rcases Decidable.em (25 < x) with hx | hx
    · have hs : ¬ s < p := fun hp => h2 ⟨hx, hp⟩
      simp [select_strategy, ltConst, gtConst, gtOpt, h1, hx, hs]
    · simp [select_strategy, ltConst, gtConst, gtOpt, h1, hx]
  · unfold select_strategy
    split
    · exact Or.inl rfl
    · split
      · exact Or.inr (Or.inl rfl)
      · exact Or.inr (Or.inr rfl)

/-- C4 witness: a snapshot satisfying both the SQUEEZE and the TURTLE raw
conditions (atrPercent=1/2, adx=30, price=100, sma200=50) is classified
SQUEEZE. -/
theorem regime_classifier_spec_witness :
    select_strategy (some (1/2)) (some 30) 100 (some 50) = Strategy.SQUEEZE :=
  (regime_classifier_spec (1/2) 30 100 50).2.1 (by norm_num) (by norm_num) (by norm_num)

/-- C9: saving truncates a log longer than 50 entries to its 50 most recent
(a suffix — the oldest entries are dropped), leaves a log of ≤ 50 entries
unchanged, and never changes cash or positions, so a save/load round trip
is the identity up to that truncation. -/
theorem save_truncates_logs (s : LedgerState) :
    (s.logs.length > 50 →
      (save_state s).logs = s.logs.drop (s.logs.length - 50)
        ∧ (save_state s).logs.length = 50)
    ∧ (s.logs.length ≤ 50 → save_state s = s)
    ∧ (save_state s).cash = s.cash
    ∧ (save_state s).positions = s.positions
    ∧ (save_state s).logs.IsSuffix s.logs := by
  refine ⟨fun h => ⟨?_, ?_⟩, fun h => ?_, ?_, ?_, ?_⟩
  · simp [save_state, h]
  · simp [save_state, h]
    omega
  · simp [save_state, Nat.not_lt.mpr h]
  · unfold save_state
    split <;> rfl
  · unfold save_state
    split <;> rfl
  · unfold save_state
    split
    · exact List.drop_suffix _ _
    · exact List.suffix_rfl

/-- C9 witness: a 51-entry log is truncated to its last 50 entries. -/
theorem save_truncates_logs_witness :
    (save_state ⟨0, fun _ => ⟨Status.NEUTRAL, 0, 0⟩, List.replicate 51 "x"⟩).logs
        = (List.replicate 51 "x").drop 1
      ∧ (save_state ⟨0, fun _ => ⟨Status.NEUTRAL, 0, 0⟩, List.replicate 51 "x"⟩).logs.length = 50 :=
  (save_truncates_logs _).1 (by simp)

/-- C1: with signal BUY, the trade commits — cash debited by
`cost = shares*price*(1+COMMISSION_RATE)`, position set LONG, exactly one
log entry appended — if and only if `cash > 0`, the sized `shares > 0` and
`cost < cash`; a committed BUY leaves cash ≥ 0, and a non-committed BUY
(including a NaN ATR) leaves ledger and notifications untouched. -/
theorem buy_commits_iff (ts : String) (s : LedgerState) (ns : List String)
    (ticker strat reason : String) (price vol eq : ℚ) :
    (0 < s.cash ∧ 0 < calculate_position_size price vol eq
        ∧ calculate_position_size price vol eq * price * (1 + COMMISSION_RATE) < s.cash →
      (execStep ts s ns ticker strat Signal.BUY reason price (some vol) eq).1.cash
          = s.cash - calculate_position_size price vol eq * price * (1 + COMMISSION_RATE)
        ∧ 0 ≤ (execStep ts s ns ticker strat Signal.BUY reason price (some vol) eq).1.cash
        ∧ (execStep ts s ns ticker strat Signal.BUY reason price (some vol) eq).1.positions ticker
            = ⟨Status.LONG, calculate_position_size price vol eq, price⟩
        ∧ (execStep ts s ns ticker strat Signal.BUY reason price (some vol) eq).1.logs
            = s.logs ++ [trade_log_entry ts ticker "BUY" price
                (calculate_position_size price vol eq) eq reason])
    ∧ (¬ (0 < s.cash ∧ 0 < calculate_position_size price vol eq
          ∧ calculate_position_size price vol eq * price * (1 + COMMISSION_RATE) < s.cash) →
        execStep ts s ns ticker strat Signal.BUY reason price (some vol) eq = (s, ns))
    ∧ execStep ts s ns ticker strat Signal.BUY reason price none eq = (s, ns) := by
  refine ⟨fun h => ?_, fun h => ?_, ?_⟩
  · obtain ⟨hc, hs, hcost⟩ := h
    have hcash : (execStep ts s ns ticker strat Signal.BUY reason price (some vol) eq).1.cash
        = s.cash - calculate_position_size price vol eq * price * (1 + COMMISSION_RATE) := by
      simp [execStep, log_trade, hc, hs, hcost]
    refine ⟨hcash, ?_, ?_, ?_⟩
    · rw [hcash]
      linarith
    · simp [execStep, log_trade, hc, hs, hcost]
    · simp [execStep, log_trade, hc, hs, hcost]
  · rcases Decidable.em (0 < s.cash) with hc | hc
    · have hni : ¬ (calculate_position_size price vol eq * price * (1 + COMMISSION_RATE) < s.cash
          ∧ calculate_position_size price vol eq > 0) := by
        intro hh
        exact h ⟨hc, hh.2, hh.1⟩
      simp [execStep, hc, hni]
    · simp [execStep, hc]
  · rcases Decidable.em (0 < s.cash) with hc | hc
    · simp [execStep, hc]
    · simp [execStep, hc]

/-- C1 witness: from the initial ledger (cash 100000), a BUY at price 100
with ATR 2 and equity 100000 sizes 240 shares, costs 24024, and commits. -/
theorem buy_commits_iff_witness :
    (execStep "t" initial_state [] "WDC" "TURTLE" Signal.BUY "Turtle Entry" 100 (some 2) 100000).1.cash
        = initial_state.cash - calculate_position_size 100 2 100000 * 100 * (1 + COMMISSION_RATE)
      ∧ 0 ≤ (execStep "t" initial_state [] "WDC" "TURTLE" Signal.BUY "Turtle Entry" 100 (some 2) 100000).1.cash
      ∧ (execStep "t" initial_state [] "WDC" "TURTLE" Signal.BUY "Turtle Entry" 100 (some 2) 100000).1.positions "WDC"
          = ⟨Status.LONG, calculate_position_size 100 2 100000, 100⟩
      ∧ (execStep "t" initial_state [] "WDC" "TURTLE" Signal.BUY "Turtle Entry" 100 (some 2) 100000).1.logs
          = initial_state.logs ++ [trade_log_entry "t" "WDC" "BUY" 100
              (calculate_position_size 100 2 100000) 100000 "Turtle Entry"] :=
  (buy_commits_iff "t" initial_state [] "WDC" "TURTLE" "Turtle Entry" 100 2 100000).1
    (by norm_num [initial_state, INITIAL_CAPITAL, calculate_position_size, RISK_PER_TRADE, COMMISSION_RATE])

/-- C5: a SELL signal on a LONG position always executes, with no solvency
check: cash grows by exactly `shares * price * (1 - COMMISSION_RATE)`, the
position resets to `{NEUTRAL, 0, 0}`, and exactly one log entry (and one
notification) is appended. -/
theorem sell_always_executes (ts : String) (s : LedgerState) (ns : List String)
    (ticker strat reason : String) (price : ℚ) (atr : Option ℚ) (eq : ℚ)
    (h : (s.positions ticker).status = Status.LONG) :
    (execStep ts s ns ticker strat Signal.SELL reason price atr eq).1.cash
        = s.cash + (s.positions ticker).shares * price * (1 - COMMISSION_RATE)
      ∧ (execStep ts s ns ticker strat Signal.SELL reason price atr eq).1.positions ticker
          = ⟨Status.NEUTRAL, 0, 0⟩
      ∧ (execStep ts s ns ticker strat Signal.SELL reason price atr eq).1.logs
          = s.logs ++ [trade_log_entry ts ticker "SELL" price (s.positions ticker).shares eq reason]
      ∧ (execStep ts s ns ticker strat Signal.SELL reason price atr eq).2
          = ns ++ [telegram_text (trade_msg strat "SELL" ticker (s.positions ticker).shares price eq) reason] := by
  simp [execStep, log_trade, h]

/-- C5 witness: the theorem applied to a concrete LONG position of 10 shares
sold at price 50. -/
theorem sell_always_executes_witness :
    (execStep "t" ⟨1000, fun _ => ⟨Status.LONG, 10, 40⟩, []⟩ [] "WDC" "TURTLE" Signal.SELL
        "Turtle Exit" 50 none 2000).1.cash
        = 1000 + 10 * 50 * (1 - COMMISSION_RATE)
      ∧ (execStep "t" ⟨1000, fun _ => ⟨Status.LONG, 10, 40⟩, []⟩ [] "WDC" "TURTLE" Signal.SELL
          "Turtle Exit" 50 none 2000).1.positions "WDC" = ⟨Status.NEUTRAL, 0, 0⟩ := by
  have h := sell_always_executes "t" ⟨1000, fun _ => ⟨Status.LONG, 10, 40⟩, []⟩ [] "WDC" "TURTLE"
    "Turtle Exit" 50 none 2000 rfl
  exact ⟨h.1, h.2.1⟩

/-! ## The position invariant (claim C2) -/

/-- `status=NEUTRAL ⇔ shares=0 ⇔ entryPrice=0`. -/
def position_invariant (p : Position) : Prop :=
  (p.status = Status.NEUTRAL ↔ p.shares = 0) ∧ (p.shares = 0 ↔ p.entry_price = 0)

/-- The sizer refuses a zero price, so a committed BUY has a nonzero entry
price. -/
theorem calculate_position_size_price_zero (vol eq : ℚ) :
    calculate_position_size 0 vol eq = 0 := by
  simp [calculate_position_size]

/-- The execution block preserves the position invariant at every ticker. -/
theorem execStep_preserves_invariant (ts : String) (s : LedgerState) (ns : List String)
    (ticker strat : String) (signal : Signal) (reason : String)
    (price : ℚ) (atr : Option ℚ) (eq : ℚ)
    (h : ∀ t, position_invariant (s.positions t)) :
    ∀ t, position_invariant ((execStep ts s ns ticker strat signal reason price atr eq).1.positions t) := by
  intro t
  unfold execStep
  dsimp only
  split
  · match atr with
    | none => exact h t
    | some vol =>
      dsimp only
      split
      · rename_i hcommit
        simp only [log_trade]
        by_cases ht : t = ticker
        · have hs : calculate_position_size price vol eq ≠ 0 := ne_of_gt hcommit.2
          have hp : price ≠ 0 := by
            intro hp0
            rw [hp0, calculate_position_size_price_zero] at hs
            exact hs rfl
          simp only [ht, if_pos rfl]
          exact ⟨by simp [hs], by simp [hs, hp]⟩
        · simpa [ht] using h t
      · exact h t
  · split
    · simp only [log_trade]
      by_cases ht : t = ticker
      · simp only [ht, if_pos rfl]
        exact ⟨by simp, by simp⟩
      · simpa [ht] using h t
    · exact h t

/-- One loop iteration preserves the position invariant. -/
theorem process_ticker_preserves_invariant (ts : String)
    (fetch : String → ℕ → Option (List Bar)) (eq : ℚ)
    (acc : LedgerState × List String) (tc : String × TickerConfig)
    (h : ∀ t, position_invariant (acc.1.positions t)) :
    ∀ t, position_invariant ((process_ticker ts fetch eq acc tc).1.positions t) := by
  unfold process_ticker
  cases hf : fetch tc.1 300 with
  | none => exact h
  | some bars =>
    dsimp only
    cases hl : bars.getLast? with
    | none => exact h
    | some lastBar =>
      dsimp only
      exact execStep_preserves_invariant _ _ _ _ _ _ _ _ _ _ h

/-- The whole per-ticker fold preserves the position invariant. -/
theorem foldl_preserves_invariant (ts : String) (fetch : String → ℕ → Option (List Bar))
    (eq : ℚ) :
    ∀ (l : List (String × TickerConfig)) (acc : LedgerState × List String),
      (∀ t, position_invariant (acc.1.positions t)) →
      ∀ t, position_invariant ((l.foldl (process_ticker ts fetch eq) acc).1.positions t) := by
  intro l
  induction l with
  | nil => exact fun acc h => h
  | cons hd tl ih =>
      intro acc h
      exact ih _ (process_ticker_preserves_invariant ts fetch eq acc hd h)

/-- Saving does not touch positions. -/
theorem save_state_positions (s : LedgerState) : (save_state s).positions = s.positions := by
  unfold save_state
  split <;> rfl

/-- C2: the NEUTRAL⇔shares=0⇔entryPrice=0 invariant holds in the initial
ledger, is preserved by the BUY/SELL execution block for every ticker, and
therefore holds after every full cycle whose input ledger satisfies it. -/
theorem position_invariant_spec :
    (∀ t, position_invariant (initial_state.positions t))
    ∧ (∀ (ts : String) (s : LedgerState) (ns : List String) (ticker strat : String)
        (signal : Signal) (reason : String) (price : ℚ) (atr : Option ℚ) (eq : ℚ),
        (∀ t, position_invariant (s.positions t)) →
        ∀ t, position_invariant
          ((execStep ts s ns ticker strat signal reason price atr eq).1.positions t))
    ∧ (∀ (now : NYCTime) (ts : String) (st : LedgerState)
        (fetch : String → ℕ → Option (List Bar)) (saved : LedgerState),
        (∀ t, position_invariant (st.positions t)) →
        (run_strategy_logic now ts (some st) fetch).2.1 = some saved →
        ∀ t, position_invariant (saved.positions t)) := by
  refine ⟨?_, execStep_preserves_invariant, ?_⟩
  · intro t
    exact ⟨by simp [initial_state], by simp [initial_state]⟩
  · intro now ts st fetch saved h hsaved
    unfold run_strategy_logic at hsaved
    by_cases htrade : is_trading_hour now
    · rw [if_pos htrade] at hsaved
      dsimp only at hsaved
      have hsv : saved = save_state ((PORTFOLIO_CONFIG.foldl
          (process_ticker ts fetch (get_current_equity st (fun ticker =>
            (fetch ticker 5).bind (fun df => (df.getLast?).map Bar.close)))) (st, [])).1) :=
        (Option.some.injEq _ _).mp hsaved.symm
      rw [hsv, save_state_positions]
      exact foldl_preserves_invariant _ _ _ _ _ h
    · rw [if_neg htrade] at hsaved
      exact absurd hsaved (by simp)

/-- C2 witness: the invariant, applied to the ticker WDC after running the
execution block on the initial ledger with a HOLD signal. -/
theorem position_invariant_spec_witness :
    position_invariant
      ((execStep "t" initial_state [] "WDC" "SQUEEZE" Signal.HOLD "" 5 none 100000).1.positions "WDC") :=
  position_invariant_spec.2.1 "t" initial_state [] "WDC" "SQUEEZE" Signal.HOLD "" 5 none 100000
    (fun _ => ⟨by simp [initial_state], by simp [initial_state]⟩) "WDC"

/-- C6: under SQUEEZE, the generated signal is BUY with reason
"Squeeze Breakout" exactly when the position is NEUTRAL and the price
strictly exceeds the trailing 20-bar high taken over the bars excluding the
current one; SQUEEZE never emits SELL; and the signal is unaffected by the
current (last) bar, so a current bar that is itself the new high cannot
suppress the breakout. -/
theorem squeeze_signal_spec :
    (∀ (cfg : TickerConfig) (status : Status) (price hi : ℚ) (bars : List Bar),
       rollingMaxLast 20 ((bars.map Bar.high).dropLast) = some hi →
       (generate_signal Strategy.SQUEEZE cfg status price bars = (Signal.BUY, "Squeeze Breakout")
         ↔ (status = Status.NEUTRAL ∧ hi < price)))
    ∧ (∀ (cfg : TickerConfig) (status : Status) (price : ℚ) (bars : List Bar),
        (generate_signal Strategy.SQUEEZE cfg status price bars).1 ≠ Signal.SELL)
    ∧ (∀ (cfg : TickerConfig) (status : Status) (price : ℚ) (bars : List Bar) (b b2 : Bar),
        generate_signal Strategy.SQUEEZE cfg status price (bars ++ [b])
          = generate_signal Strategy.SQUEEZE cfg status price (bars ++ [b2])) := by
  refine ⟨fun cfg status price hi bars hmax => ?_, fun cfg status price bars => ?_, ?_⟩
  · simp only [generate_signal, hmax, gtOpt]
    split
    · rename_i hcond
      simp only [decide_eq_true_eq] at hcond
      simp [hcond.1, hcond.2]
    · rename_i hcond
      simp only [not_and, decide_eq_true_eq] at hcond
      constructor
      · intro hh
        exact absurd (congrArg Prod.fst hh) (by simp)
      · intro hh
        exact absurd (hcond hh.1) (by simp [hh.2])
  · unfold generate_signal
    dsimp only
    split
    · simp
    · simp
  · intro cfg status price bars b b2
    simp [generate_signal, List.map_append, List.dropLast_concat]

set_option maxRecDepth 4000 in
/-- C6 witness: 21 bars of high 1 and a current price of 2 — the current
bar excluded, the trailing high is 1, and the breakout fires. -/
theorem squeeze_signal_spec_witness :
    generate_signal Strategy.SQUEEZE ⟨50, 20⟩ Status.NEUTRAL 2 (List.replicate 21 ⟨1, 1, 1⟩)
      = (Signal.BUY, "Squeeze Breakout") :=
  (squeeze_signal_spec.1 ⟨50, 20⟩ Status.NEUTRAL 2 1 (List.replicate 21 ⟨1, 1, 1⟩)
    (by decide)).mpr ⟨rfl, by norm_num⟩

/-- C10: when the market-hours gate reports closed — a weekend day or a
New-York time outside 09:30–16:00, which the first part characterises —
the cycle returns "Market Closed" with no state written and no
notifications, for every stored ledger and every data feed (so the ledger
is untouched). -/
theorem market_closed_spec :
    (∀ now : NYCTime, is_trading_hour now = false ↔
        5 ≤ now.weekday
        ∨ timeOfDayUs now.hour now.minute now.second now.microsecond < timeOfDayUs 9 30 0 0
        ∨ timeOfDayUs 16 0 0 0 < timeOfDayUs now.hour now.minute now.second now.microsecond)
    ∧ (∀ (now : NYCTime) (ts : String) (stored : Option LedgerState)
        (fetch : String → ℕ → Option (List Bar)),
        is_trading_hour now = false →
        run_strategy_logic now ts stored fetch = ("Market Closed", none, [])) := by
  constructor
  · intro now
    unfold is_trading_hour
    by_cases hw : 5 ≤ now.weekday
    · simp [hw]
    · simp only [if_neg hw]
      simp [hw, not_le]
      omega
  · intro now ts stored fetch h
    simp [run_strategy_logic, h]

/-- C10 witness: on a Saturday noon, with a stored ledger and a live feed,
the cycle still returns "Market Closed" untouched. -/
theorem market_closed_spec_witness :
    run_strategy_logic ⟨5, 12, 0, 0, 0⟩ "t" (some initial_state)
        (fun _ _ => some [⟨1, 1, 1⟩]) = ("Market Closed", none, []) :=
  market_closed_spec.2 ⟨5, 12, 0, 0, 0⟩ "t" (some initial_state)
    (fun _ _ => some [⟨1, 1, 1⟩]) (by decide)

/-- C8 counterexample: with the store unavailable during trading hours
(Monday 10:00), `run_strategy_logic` returns early — it skips the cycle
computations (the result is the same under a feed that would otherwise
trade) — and `execute` reports the outcome with status "success", not a
non-success result as the claim states. -/
theorem database_error_counterexample :
    (execute ⟨0, 10, 0, 0, 0⟩ "t" none (fun _ _ => none)).1 = "success"
      ∧ (execute ⟨0, 10, 0, 0, 0⟩ "t" none (fun _ _ => none)).2 = "Database Error"
      ∧ run_strategy_logic ⟨0, 10, 0, 0, 0⟩ "t" none (fun _ _ => some (List.replicate 300 ⟨1, 1, 1⟩))
          = ("Database Error", none, []) := by
  refine ⟨rfl, rfl, ?_⟩
  have h : is_trading_hour ⟨0, 10, 0, 0, 0⟩ = true := by decide
  simp [run_strategy_logic, h]

/-- C8 (amended): when the store is unavailable or unconfigured
(`db is None`, modelled as a `none` document) the cycle returns early with
"Database Error" — the in-memory computations are skipped, nothing is
saved and nothing notified — and the route handler does not crash but
reports the outcome as message "Database Error" under status "success". -/
theorem database_error_path (now : NYCTime) (ts : String)
    (fetch : String → ℕ → Option (List Bar)) (h : is_trading_hour now = true) :
    run_strategy_logic now ts none fetch = ("Database Error", none, [])
      ∧ execute now ts none fetch = ("success", "Database Error") := by
  constructor
  · simp [run_strategy_logic, h]
  · simp [execute, run_strategy_logic, h]

/-- C8 witness: the amended theorem applied on Monday 10:00. -/
theorem database_error_path_witness :
    run_strategy_logic ⟨0, 10, 0, 0, 0⟩ "t2" none (fun _ _ => none)
        = ("Database Error", none, [])
      ∧ execute ⟨0, 10, 0, 0, 0⟩ "t2" none (fun _ _ => none)
        = ("success", "Database Error") :=
  database_error_path ⟨0, 10, 0, 0, 0⟩ "t2" (fun _ _ => none) (by decide)

theorem mem_of_mem_zipWith {α β γ : Type} {f : α → β → γ} :
    ∀ {xs : List α} {ys : List β} {z : γ}, z ∈ List.zipWith f xs ys →
      ∃ x ∈ xs, ∃ y ∈ ys, z = f x y := by
  intro xs
  induction xs with
  | nil =>
      intro ys z h
      simp at h
  | cons x xs ih =>
      intro ys z h
      cases ys with
      | nil => simp at h
      | cons y ys =>
          rw [List.zipWith_cons_cons, List.mem_cons] at h
          rcases h with h | h
          · exact ⟨x, by simp, y, by simp, h⟩
          · obtain ⟨x2, hx2, y2, hy2, hz⟩ := ih h
            exact ⟨x2, by simp [hx2], y2, by simp [hy2], hz⟩

theorem divO_eq_some {p q : Option ℚ} {u : ℚ} (h : divO p q = some u) :
    ∃ pv qv, p = some pv ∧ q = some qv ∧ qv ≠ 0 ∧ u = pv / qv := by
  match p, q with
  | none, _ => simp [divO] at h
  | some pv, none => simp [divO] at h
  | some pv, some qv =>
      simp only [divO] at h
      by_cases hq : qv = 0
      · rw [if_pos hq] at h
        exact absurd h (by simp)
      · rw [if_neg hq] at h
        exact ⟨pv, qv, rfl, rfl, hq, ((Option.some.injEq _ _).mp h).symm⟩

/-- Lower bound for the ewm outputs: if every valid input is ≥ `lo` and the
running state respects the bound, every valid output is ≥ `lo`. -/
theorem ewmGo_lb (a lo : ℚ) (ha0 : 0 < a) (ha1 : a < 1) :
    ∀ (xs : List (Option ℚ)) (st : Option (ℚ × ℚ)),
      (∀ n d, st = some (n, d) → 0 < d ∧ lo * d ≤ n) →
      (∀ o ∈ xs, ∀ v, o = some v → lo ≤ v) →
      ∀ o ∈ ewmGo a st xs, ∀ v, o = some v → lo ≤ v := by
  intro xs
  induction xs with
  | nil =>
      intro st _ _ o ho
      simp [ewmGo] at ho
  | cons x xs ih =>
      intro st hst hin o ho v hv
      have hintail : ∀ o ∈ xs, ∀ v, o = some v → lo ≤ v := by
        intro o2 ho2
        exact hin o2 (List.mem_cons_of_mem _ ho2)
      match st, x with
      | none, none =>
          rw [show ewmGo a none (none :: xs) = none :: ewmGo a none xs from rfl,
            List.mem_cons] at ho
          rcases ho with rfl | ho
          · exact absurd hv (by simp)
          · exact ih none (by simp) hintail o ho v hv
      | none, some w =>
          rw [show ewmGo a none (some w :: xs) = some w :: ewmGo a (some (w, 1)) xs from rfl,
            List.mem_cons] at ho
          have hw : lo ≤ w := hin (some w) (by simp) w rfl
          rcases ho with rfl | ho
          · rw [(Option.some.injEq _ _).mp hv] at hw
            exact hw
          · refine ih (some (w, 1)) ?_ hintail o ho v hv
            intro n d hnd
            obtain ⟨h1, h2⟩ := Prod.mk.injEq .. ▸ (Option.some.injEq _ _).mp hnd
            rw [← h1, ← h2]
            exact ⟨one_pos, by simpa using hw⟩
      | some (n, d), none =>
          obtain ⟨hd, hn⟩ := hst n d rfl
          have h1a : (0:ℚ) < 1 - a := by linarith
          have hd2 : (0:ℚ) < (1 - a) * d + 0 := by positivity
          have hn2 : lo * ((1 - a) * d + 0) ≤ (1 - a) * n + 0 := by
            have g1 : (1 - a) * (lo * d) ≤ (1 - a) * n :=
              mul_le_mul_of_nonneg_left hn (le_of_lt h1a)
            nlinarith [g1]
          have hstep : ewmGo a (some (n, d)) (none :: xs)
              = (if (1 - a) * d + 0 = 0 then none
                  else some (((1 - a) * n + 0) / ((1 - a) * d + 0)))
                :: ewmGo a (some ((1 - a) * n + 0, (1 - a) * d + 0)) xs := rfl
          rw [hstep, List.mem_cons] at ho
          rcases ho with rfl | ho
          · rw [if_neg (ne_of_gt hd2)] at hv
            rw [← (Option.some.injEq _ _).mp hv]
            exact (le_div_iff₀ hd2).mpr (by linarith [hn2])
          · refine ih (some ((1 - a) * n + 0, (1 - a) * d + 0)) ?_ hintail o ho v hv
            intro n3 d3 hnd
            obtain ⟨h1, h2⟩ := Prod.mk.injEq .. ▸ (Option.some.injEq _ _).mp hnd
            rw [← h1, ← h2]
            exact ⟨hd2, hn2⟩
      | some (n, d), some w =>
          obtain ⟨hd, hn⟩ := hst n d rfl
          have h1a : (0:ℚ) < 1 - a := by linarith
          have hw : lo ≤ w := hin (some w) (by simp) w rfl
          have hd2 : (0:ℚ) < (1 - a) * d + a := by positivity
          have hn2 : lo * ((1 - a) * d + a) ≤ (1 - a) * n + a * w := by
            have g1 : (1 - a) * (lo * d) ≤ (1 - a) * n :=
              mul_le_mul_of_nonneg_left hn (le_of_lt h1a)
            have g2 : a * lo ≤ a * w := mul_le_mul_of_nonneg_left hw (le_of_lt ha0)
            nlinarith [g1, g2]
          have hstep : ewmGo a (some (n, d)) (some w :: xs)
              = (if (1 - a) * d + a = 0 then none
                  else some (((1 - a) * n + a * w) / ((1 - a) * d + a)))
                :: ewmGo a (some ((1 - a) * n + a * w, (1 - a) * d + a)) xs := rfl
          rw [hstep, List.mem_cons] at ho
          rcases ho with rfl | ho
          · rw [if_neg (ne_of_gt hd2)] at hv
            rw [← (Option.some.injEq _ _).mp hv]
            exact (le_div_iff₀ hd2).mpr (by linarith [hn2])
          · refine ih (some ((1 - a) * n + a * w, (1 - a) * d + a)) ?_ hintail o ho v hv
            intro n3 d3 hnd
            obtain ⟨h1, h2⟩ := Prod.mk.injEq .. ▸ (Option.some.injEq _ _).mp hnd
            rw [← h1, ← h2]
            exact ⟨hd2, hn2⟩

/-- Upper bound for the ewm outputs, symmetric to `ewmGo_lb`. -/
theorem ewmGo_ub (a hi : ℚ) (ha0 : 0 < a) (ha1 : a < 1) :
    ∀ (xs : List (Option ℚ)) (st : Option (ℚ × ℚ)),
      (∀ n d, st = some (n, d) → 0 < d ∧ n ≤ hi * d) →
      (∀ o ∈ xs, ∀ v, o = some v → v ≤ hi) →
      ∀ o ∈ ewmGo a st xs, ∀ v, o = some v → v ≤ hi := by
  intro xs
  induction xs with
  | nil =>
      intro st _ _ o ho
      simp [ewmGo] at ho
  | cons x xs ih =>
      intro st hst hin o ho v hv
      have hintail : ∀ o ∈ xs, ∀ v, o = some v → v ≤ hi := by
        intro o2 ho2
        exact hin o2 (List.mem_cons_of_mem _ ho2)
      match st, x with
      | none, none =>
          rw [show ewmGo a none (none :: xs) = none :: ewmGo a none xs from rfl,
            List.mem_cons] at ho
          rcases ho with rfl | ho
          · exact absurd hv (by simp)
          · exact ih none (by simp) hintail o ho v hv
      | none, some w =>
          rw [show ewmGo a none (some w :: xs) = some w :: ewmGo a (some (w, 1)) xs from rfl,
            List.mem_cons] at ho
          have hw : w ≤ hi := hin (some w) (by simp) w rfl
          rcases ho with rfl | ho
          · rw [(Option.some.injEq _ _).mp hv] at hw
            exact hw
          · refine ih (some (w, 1)) ?_ hintail o ho v hv
            intro n d hnd
            obtain ⟨h1, h2⟩ := Prod.mk.injEq .. ▸ (Option.some.injEq _ _).mp hnd
            rw [← h1, ← h2]
            exact ⟨one_pos, by simpa using hw⟩
      | some (n, d), none =>
          obtain ⟨hd, hn⟩ := hst n d rfl
          have h1a : (0:ℚ) < 1 - a := by linarith
          have hd2 : (0:ℚ) < (1 - a) * d + 0 := by positivity
          have hn2 : (1 - a) * n + 0 ≤ hi * ((1 - a) * d + 0) := by
            have g1 : (1 - a) * n ≤ (1 - a) * (hi * d) :=
              mul_le_mul_of_nonneg_left hn (le_of_lt h1a)
            nlinarith [g1]
          have hstep : ewmGo a (some (n, d)) (none :: xs)
              = (if (1 - a) * d + 0 = 0 then none
                  else some (((1 - a) * n + 0) / ((1 - a) * d + 0)))
                :: ewmGo a (some ((1 - a) * n + 0, (1 - a) * d + 0)) xs := rfl
          rw [hstep, List.mem_cons] at ho
          rcases ho with rfl | ho
          · rw [if_neg (ne_of_gt hd2)] at hv
            rw [← (Option.some.injEq _ _).mp hv]
            exact (div_le_iff₀ hd2).mpr (by linarith [hn2])
          · refine ih (some ((1 - a) * n + 0, (1 - a) * d + 0)) ?_ hintail o ho v hv
            intro n3 d3 hnd
            obtain ⟨h1, h2⟩ := Prod.mk.injEq .. ▸ (Option.some.injEq _ _).mp hnd
            rw [← h1, ← h2]
            exact ⟨hd2, hn2⟩
      | some (n, d), some w =>
          obtain ⟨hd, hn⟩ := hst n d rfl
          have h1a : (0:ℚ) < 1 - a := by linarith
          have hw : w ≤ hi := hin (some w) (by simp) w rfl
          have hd2 : (0:ℚ) < (1 - a) * d + a := by positivity
          have hn2 : (1 - a) * n + a * w ≤ hi * ((1 - a) * d + a) := by
            have g1 : (1 - a) * n ≤ (1 - a) * (hi * d) :=
              mul_le_mul_of_nonneg_left hn (le_of_lt h1a)
            have g2 : a * w ≤ a * hi := mul_le_mul_of_nonneg_left hw (le_of_lt ha0)
            nlinarith [g1, g2]
          have hstep : ewmGo a (some (n, d)) (some w :: xs)
              = (if (1 - a) * d + a = 0 then none
                  else some (((1 - a) * n + a * w) / ((1 - a) * d + a)))
                :: ewmGo a (some ((1 - a) * n + a * w, (1 - a) * d + a)) xs := rfl
          rw [hstep, List.mem_cons] at ho
          rcases ho with rfl | ho
          · rw [if_neg (ne_of_gt hd2)] at hv
            rw [← (Option.some.injEq _ _).mp hv]
            exact (div_le_iff₀ hd2).mpr (by linarith [hn2])
          · refine ih (some ((1 - a) * n + a * w, (1 - a) * d + a)) ?_ hintail o ho v hv
            intro n3 d3 hnd
            obtain ⟨h1, h2⟩ := Prod.mk.injEq .. ▸ (Option.some.injEq _ _).mp hnd
            rw [← h1, ← h2]
            exact ⟨hd2, hn2⟩

/-- Rows after the first of the true-range series are maxima over absolute
values, hence nonnegative. -/
theorem trAux_nonneg : ∀ (bs : List Bar) (prev : Bar), ∀ x ∈ trAux prev bs, 0 ≤ x := by
  intro bs
  induction bs with
  | nil =>
      intro prev x hx
      simp [trAux] at hx
  | cons b bs ih =>
      intro prev x hx
      rw [show trAux prev (b :: bs)
          = max (b.high - b.low) (max |b.high - prev.close| |b.low - prev.close|) :: trAux b bs
          from rfl, List.mem_cons] at hx
      rcases hx with rfl | hx
      · exact le_trans (le_trans (abs_nonneg _) (le_max_left _ _)) (le_max_right _ _)
      · exact ih b x hx

/-- Under `low ≤ high` on the first bar, the whole true-range series is
nonnegative. -/
theorem trList_nonneg (bars : List Bar) (hb : ∀ b ∈ bars, b.low ≤ b.high) :
    ∀ x ∈ trList bars, 0 ≤ x := by
  cases bars with
  | nil => simp [trList]
  | cons b bs =>
      intro x hx
      rw [show trList (b :: bs) = (b.high - b.low) :: trAux b bs from rfl, List.mem_cons] at hx
      rcases hx with rfl | hx
      · exact sub_nonneg.mpr (hb b (by simp))
      · exact trAux_nonneg bs b x hx

/-- Every valid entry of `plus_dm` is nonnegative (negatives are zeroed). -/
theorem adx_plus_dm_nonneg (bars : List Bar) :
    ∀ o ∈ adx_plus_dm bars, ∀ v, o = some v → 0 ≤ v := by
  intro o ho v hv
  unfold adx_plus_dm at ho
  obtain ⟨o2, _, rfl⟩ := List.mem_map.mp ho
  cases o2 with
  | none => simp at hv
  | some w =>
      simp only [Option.map_some'] at hv
      rw [← (Option.some.injEq _ _).mp hv]
      by_cases hw : w < 0
      · simp [hw]
      · simp [hw, le_of_not_lt hw]

/-- Every valid entry of the smoothed true range is nonnegative. -/
theorem adx_atr_nonneg (bars : List Bar) (hb : ∀ b ∈ bars, b.low ≤ b.high) :
    ∀ o ∈ adx_atr 14 bars, ∀ v, o = some v → 0 ≤ v := by
  unfold adx_atr ewm
  refine ewmGo_lb _ 0 (by norm_num) (by norm_num) _ none (by simp) ?_
  intro o ho v hv
  obtain ⟨x, hx, rfl⟩ := List.mem_map.mp ho
  rw [← (Option.some.injEq _ _).mp hv]
  exact trList_nonneg bars hb x hx

/-- Every valid entry of `plus_di` is nonnegative. -/
theorem adx_plus_di_nonneg (bars : List Bar) (hb : ∀ b ∈ bars, b.low ≤ b.high) :
    ∀ o ∈ adx_plus_di 14 bars, ∀ v, o = some v → 0 ≤ v := by
  intro o ho v hv
  unfold adx_plus_di at ho
  obtain ⟨p, hp, q, hq, rfl⟩ := mem_of_mem_zipWith ho
  obtain ⟨u, hu, huv⟩ := Option.map_eq_some'.mp hv
  obtain ⟨pv, qv, hpv, hqv, hqv0, rfl⟩ := divO_eq_some hu
  have hple : 0 ≤ pv := by
    refine ewmGo_lb _ 0 (by norm_num) (by norm_num) _ none (by simp) ?_ p hp pv hpv
    exact adx_plus_dm_nonneg bars
  have hqle : 0 ≤ qv := adx_atr_nonneg bars hb q hq qv hqv
  rw [← huv]
  positivity

/-- Every valid entry of `minus_di` is nonnegative (its numerator is an
absolute value). -/
theorem adx_minus_di_nonneg (bars : List Bar) (hb : ∀ b ∈ bars, b.low ≤ b.high) :
    ∀ o ∈ adx_minus_di 14 bars, ∀ v, o = some v → 0 ≤ v := by
  intro o ho v hv
  unfold adx_minus_di at ho
  obtain ⟨p, hp, q, hq, rfl⟩ := mem_of_mem_zipWith ho
  obtain ⟨u, hu, huv⟩ := Option.map_eq_some'.mp hv
  obtain ⟨pv, qv, hpv, hqv, hqv0, rfl⟩ := divO_eq_some hu
  have hple : 0 ≤ pv := by
    obtain ⟨w, _, rfl⟩ := List.mem_map.mp hp
    obtain ⟨w2, hw2, hw2e⟩ := Option.map_eq_some'.mp hpv
    rw [← hw2e]
    exact abs_nonneg w2
  have hqle : 0 ≤ qv := adx_atr_nonneg bars hb q hq qv hqv
  rw [← huv]
  positivity

/-- Every valid entry of the DX series lies in [0, 100]. -/
theorem adx_dx_range (bars : List Bar) (hb : ∀ b ∈ bars, b.low ≤ b.high) :
    ∀ o ∈ adx_dx 14 bars, ∀ v, o = some v → 0 ≤ v ∧ v ≤ 100 := by
  intro o ho v hv
  unfold adx_dx at ho
  obtain ⟨p, hp, m, hm, rfl⟩ := mem_of_mem_zipWith ho
  obtain ⟨u, hu, huv⟩ := Option.map_eq_some'.mp hv
  obtain ⟨nv, dv, hnum, hden, hdv0, rfl⟩ := divO_eq_some hu
  obtain ⟨sv, hsv, hsve⟩ := Option.map_eq_some'.mp hnum
  match p, m with
  | none, _ => simp [subO] at hsv
  | some pv, none => simp [subO] at hsv
  | some pv, some mv =>
      have hsv2 : sv = pv - mv := by
        simpa [subO] using hsv.symm
      have hdv : dv = pv + mv := by
        simpa [addO] using hden.symm
      have hpv : 0 ≤ pv := adx_plus_di_nonneg bars hb (some pv) hp pv rfl
      have hmv : 0 ≤ mv := adx_minus_di_nonneg bars hb (some mv) hm mv rfl
      have hdpos : 0 < dv := by
        rcases lt_or_eq_of_le (by rw [hdv]; positivity : (0:ℚ) ≤ dv) with h | h
        · exact h
        · exact absurd h.symm hdv0
      have habs : |sv| ≤ dv := by
        rw [hsv2, hdv, abs_sub_le_iff]
        constructor <;> linarith
      rw [← huv, ← hsve]
      constructor
      · positivity
      · have hle1 : |sv| / dv ≤ 1 := (div_le_one hdpos).mpr habs
        nlinarith [hle1]

/-- C7 (amended): ADX returns exactly 0 whenever fewer than `window * 2`
bars exist, regardless of price pattern; and on bars with `low ≤ high`,
whenever the computation returns a finite value at the default window the
value lies in [0, 100] (on degenerate series, e.g. constant prices, it
returns no finite value — see the counterexample). -/
theorem adx_range_spec :
    (∀ (bars : List Bar) (window : ℕ), bars.length < window * 2 → get_adx bars window = some 0)
    ∧ (∀ bars : List Bar, (∀ b ∈ bars, b.low ≤ b.high) →
        ∀ v : ℚ, get_adx bars 14 = some v → 0 ≤ v ∧ v ≤ 100) := by
  constructor
  · intro bars window h
    simp [get_adx, h]
  · intro bars hb v hv
    unfold get_adx at hv
    by_cases hlen : bars.length < 14 * 2
    · rw [if_pos hlen] at hv
      rw [← (Option.some.injEq _ _).mp hv]
      norm_num
    · rw [if_neg hlen, Option.join_eq_some] at hv
      have hmem := List.mem_of_mem_getLast? hv
      unfold ewm at hmem
      constructor
      · exact ewmGo_lb _ 0 (by norm_num) (by norm_num) _ none (by simp)
          (fun o ho v2 hv2 => (adx_dx_range bars hb o ho v2 hv2).1) (some v) hmem v rfl
      · exact ewmGo_ub _ 100 (by norm_num) (by norm_num) _ none (by simp)
          (fun o ho v2 hv2 => (adx_dx_range bars hb o ho v2 hv2).2) (some v) hmem v rfl

/-- C7 amended witness: the empty series is shorter than 2×14 bars, so ADX
is 0, which lies in [0, 100]. -/
theorem adx_range_spec_witness :
    get_adx [] 14 = some 0 ∧ ((0:ℚ) ≤ 0 ∧ (0:ℚ) ≤ 100) :=
  ⟨adx_range_spec.1 [] 14 (by norm_num), adx_range_spec.2 [] (by simp) 0 (adx_range_spec.1 [] 14 (by norm_num))⟩

/-- On a constant bar the true-range tail rows are all zero. -/
theorem trAux_const : ∀ k, trAux ⟨5, 5, 5⟩ (List.replicate k ⟨5, 5, 5⟩) = List.replicate k (0:ℚ) := by
  intro k
  induction k with
  | zero => rfl
  | succ k ih =>
      rw [List.replicate_succ,
        show trAux (⟨5, 5, 5⟩ : Bar) ((⟨5, 5, 5⟩ : Bar) :: List.replicate k ⟨5, 5, 5⟩)
          = max ((5:ℚ) - 5) (max |(5:ℚ) - 5| |(5:ℚ) - 5|)
              :: trAux ⟨5, 5, 5⟩ (List.replicate k ⟨5, 5, 5⟩) from rfl,
        ih, List.replicate_succ]
      norm_num

/-- The true-range series of 28 constant bars is 28 zeros. -/
theorem trList_const : trList (List.replicate 28 ⟨5, 5, 5⟩) = List.replicate 28 (0:ℚ) := by
  rw [show trList (List.replicate 28 ⟨5, 5, 5⟩)
      = ((5:ℚ) - 5) :: trAux ⟨5, 5, 5⟩ (List.replicate 27 ⟨5, 5, 5⟩) from rfl,
    trAux_const, show (5:ℚ) - 5 = 0 by norm_num]
  rfl

/-- Smoothing a stream of zeros keeps state (0, 1) and emits zeros. -/
theorem ewmGo_zero (a : ℚ) :
    ∀ k, ewmGo a (some (0, 1)) (List.replicate k (some (0:ℚ))) = List.replicate k (some 0) := by
  intro k
  induction k with
  | zero => rfl
  | succ k ih =>
      rw [List.replicate_succ,
        show ewmGo a (some ((0:ℚ), (1:ℚ))) (some (0:ℚ) :: List.replicate k (some (0:ℚ)))
          = (if (1 - a) * 1 + a = 0 then none
              else some (((1 - a) * 0 + a * 0) / ((1 - a) * 1 + a)))
            :: ewmGo a (some ((1 - a) * 0 + a * 0, (1 - a) * 1 + a))
                (List.replicate k (some 0)) from rfl,
        show (1 - a) * 0 + a * 0 = (0:ℚ) by ring, show (1 - a) * 1 + a = (1:ℚ) by ring,
        ih]
      norm_num

/-- The smoothed true range of 28 constant bars is 28 zeros. -/
theorem adx_atr_const : adx_atr 14 (List.replicate 28 ⟨5, 5, 5⟩) = List.replicate 28 (some (0:ℚ)) := by
  unfold adx_atr ewm
  rw [trList_const, List.map_replicate,
    show (28:ℕ) = 27 + 1 from rfl, List.replicate_succ,
    show ewmGo (1 / ((14:ℕ):ℚ)) none (some (0:ℚ) :: List.replicate 27 (some (0:ℚ)))
      = some (0:ℚ) :: ewmGo (1 / ((14:ℕ):ℚ)) (some (0, 1)) (List.replicate 27 (some (0:ℚ))) from rfl,
    ewmGo_zero, List.replicate_succ]

/-- With a zero ATR every `plus_di` entry divides by zero, hence is NaN. -/
theorem adx_plus_di_const_none :
    ∀ o ∈ adx_plus_di 14 (List.replicate 28 ⟨5, 5, 5⟩), o = none := by
  intro o ho
  unfold adx_plus_di at ho
  rw [adx_atr_const] at ho
  obtain ⟨p, hp, q, hq, rfl⟩ := mem_of_mem_zipWith ho
  have hq0 : q = some 0 := List.eq_of_mem_replicate hq
  subst hq0
  cases p <;> simp [divO]

/-- Hence every DX entry is NaN on the constant series. -/
theorem adx_dx_const_none :
    ∀ o ∈ adx_dx 14 (List.replicate 28 ⟨5, 5, 5⟩), o = none := by
  intro o ho
  unfold adx_dx at ho
  obtain ⟨p, hp, m, hm, rfl⟩ := mem_of_mem_zipWith ho
  have hp2 := adx_plus_di_const_none p hp
  subst hp2
  simp [subO, divO]

/-- Smoothing an all-NaN series yields an all-NaN series. -/
theorem ewmGo_none_all (a : ℚ) :
    ∀ xs : List (Option ℚ), (∀ o ∈ xs, o = none) → ∀ o ∈ ewmGo a none xs, o = none := by
  intro xs
  induction xs with
  | nil =>
      intro _ o ho
      simp [ewmGo] at ho
  | cons x xs ih =>
      intro h o ho
      have hx : x = none := h x (by simp)
      subst hx
      rw [show ewmGo a none (none :: xs) = none :: ewmGo a none xs from rfl,
        List.mem_cons] at ho
      rcases ho with rfl | ho
      · rfl
      · exact ih (fun o2 ho2 => h o2 (List.mem_cons_of_mem _ ho2)) o ho

/-- C7 counterexample: 28 constant bars (a valid series, not short — length
equals 2×14) make the ATR denominator zero; every DI and DX entry is NaN
and `get_adx` returns NaN rather than a value in [0, 100]. -/
theorem adx_counterexample :
    (List.replicate 28 (⟨5, 5, 5⟩ : Bar)).length = 28
      ∧ get_adx (List.replicate 28 ⟨5, 5, 5⟩) 14 = none := by
  refine ⟨by simp, ?_⟩
  unfold get_adx
  rw [if_neg (by norm_num)]
  rcases hL : (ewm (1 / ((14:ℕ):ℚ)) (adx_dx 14 (List.replicate 28 ⟨5, 5, 5⟩))).getLast? with _ | o
  · rfl
  · have ho : o ∈ ewm (1 / ((14:ℕ):ℚ)) (adx_dx 14 (List.replicate 28 ⟨5, 5, 5⟩)) :=
      List.mem_of_mem_getLast? hL
    unfold ewm at ho
    rw [ewmGo_none_all _ _ adx_dx_const_none o ho]
    rfl
